import Mathlib

/-!
# newsfeedAPI: enrichment pipeline of `index.js`

A shallow embedding of the text heuristics of `index.js` (`determineTopic`,
`generateSummary`, `extractEntities`), of the per-item enrichment step and feed loop
of `fetchNews`, and of the `GET /topics` route, followed by the properties proved
about them.

Modelling conventions.

* A JavaScript string is modelled by the list of its characters (`Str`), one `Char`
  per UTF-16 code unit, so `length` and `substring` count list positions.
* The `natural` package (word tokenizer, sentiment analyzer, TF-IDF) and the built-in
  operations `String.prototype.toLowerCase` and `+` on numbers are not part of
  `index.js`; they are the fields of the structure `Nlp`, over which every definition
  is parametric.
* A JavaScript number is `NaN` or a number proper (`JsNumber`); the numbers proper are
  linearly ordered, and every comparison with `NaN` is false.
* `Array.prototype.sort` is a stable sort (ECMAScript 2019); it is modelled by the
  stable insertion sort of the comparator's "not after" relation. A comparator result
  `NaN` counts as `0`.
* Regular expressions are embedded as syntax trees (`Regex`) run by a backtracking
  matcher with the priorities of the ECMAScript matcher (greedy quantifiers, left
  alternative first).
-/

namespace NewsFeed

/-! ## Strings -/

/-- A JavaScript string, as the list of its characters. -/
abbrev Str := List Char

/-- Clamp an integer position to `[0, len]`, as `substring` does with its arguments. -/
def clampIndex (len : Nat) (i : Int) : Nat := min i.toNat len

/-- The method `String.prototype.substring(start, stop)`: both positions are clamped
to `[0, length]` (a negative position counts as `0`) and swapped when out of order. -/
def substring (s : Str) (start stop : Int) : Str :=
  let a := clampIndex s.length start
  let b := clampIndex s.length stop
  (s.drop (min a b)).take (max a b - min a b)

/-- The method `String.prototype.includes(k)`: `k` occurs in `w` as a contiguous run. -/
def includes : Str → Str → Bool
  | [], k => k.isEmpty
  | c :: cs, k => k.isPrefixOf (c :: cs) || includes cs k

/-- The method `Array.prototype.join(sep)` on an array of strings. -/
def join (sep : Str) : List Str → Str
  | [] => []
  | [a] => a
  | a :: b :: rest => a ++ sep ++ join sep (b :: rest)

/-- The elements of `[...new Set(xs)]`: duplicates removed, first occurrences kept in
order. -/
def uniqueInOrder : List Str → List Str
  | [] => []
  | a :: rest => a :: (uniqueInOrder rest).filter (fun b => b != a)

/-- The method `Array.prototype.sort(cmp)`: a stable sort in which `a` stays before
`b` unless `cmp a b > 0`. For a comparator that is not consistent (a `NaN` result
between elements that otherwise differ) ECMAScript leaves the order to the
implementation; the model then yields the order of the insertion sort. -/
def jsSort {α : Type} (cmp : α → α → Int) (xs : List α) : List α :=
  xs.insertionSort (fun a b => cmp a b ≤ 0)

/-- JavaScript `a || b` on an optional string: `undefined` and `''` are falsy. -/
def orElseStr (a : Option Str) (b : Str) : Str :=
  match a with
  | some (c :: cs) => c :: cs
  | _ => b

/-- JavaScript `a || b` where `b` may itself be absent. -/
def orElseOpt (a b : Option Str) : Option Str :=
  match a with
  | some (c :: cs) => some (c :: cs)
  | _ => b

/-! ## Regular expressions -/

/-- The fragment of regular-expression syntax used by `index.js`. -/
inductive Regex where
  /-- A character class `[...]`, given by its membership test. -/
  | cls (p : Char → Bool)
  /-- A run of literal characters. -/
  | lit (l : Str)
  /-- Concatenation. -/
  | seq (a b : Regex)
  /-- Alternation `a|b`, the left alternative tried first. -/
  | alt (a b : Regex)
  /-- The greedy quantifier `a{lo,hi}`; `hi = none` is unbounded (`+` is `{1,}`, `*` is
  `{0,}`). -/
  | rep (lo : Nat) (hi : Option Nat) (a : Regex)

/-- The greedy repetition of a matcher `m`, with continuation `k`. The first argument
bounds the length of the input still to be read: every iteration has to consume at
least one character, so an iteration from input `s` leaves at most `s.length - 1`
characters. A further iteration is tried before leaving the loop; the loop may be
left only once `lo` iterations are done. -/
def repeatGreedy (m : Str → (Str → Option Str) → Option Str) :
    Nat → Nat → Option Nat → Str → (Str → Option Str) → Option Str
  | 0, lo, _, s, k => if lo = 0 then k s else none
  | n + 1, lo, hi, s, k =>
    if hi = some 0 then k s
    else
      match m s (fun r =>
          if r.length < s.length then repeatGreedy m n (lo - 1) (hi.map (· - 1)) r k
          else none) with
      | some out => some out
      | none => if lo = 0 then k s else none

/-- The backtracking matcher: `r.run s k` matches `r` at the start of `s` and hands the
unread rest of the input to the continuation `k`; when `k` fails the next way of
matching `r` is tried. The result is that of the first successful continuation. -/
def Regex.run : Regex → Str → (Str → Option Str) → Option Str
  | .cls p, s, k =>
    match s with
    | c :: cs => if p c then k cs else none
    | [] => none
  | .lit l, s, k => if l.isPrefixOf s then k (s.drop l.length) else none
  | .seq a b, s, k => a.run s (fun rest => b.run rest k)
  | .alt a b, s, k =>
    match a.run s k with
    | some out => some out
    | none => b.run s k
  | .rep lo hi a, s, k => repeatGreedy a.run s.length lo hi s k

/-- One match attempt anchored at the start of `s`: the matched text, if any. -/
def Regex.exec (r : Regex) (s : Str) : Option Str :=
  (r.run s some).map (fun rest => s.take (s.length - rest.length))

/-- The successive matches of a global (`/g`) regular expression, scanning left to
right. The first argument counts the characters still covered by the previous match;
after a failed attempt, or an empty match, the scan moves on by one character. -/
def Regex.matchAll (r : Regex) : Nat → Str → List Str
  | 0, [] =>
    match r.exec [] with
    | some m => [m]
    | none => []
  | _ + 1, [] => []
  | skip + 1, _ :: cs => matchAll r skip cs
  | 0, c :: cs =>
    match r.exec (c :: cs) with
    | some m => m :: matchAll r (m.length - 1) cs
    | none => matchAll r 0 cs

/-- The method `text.match(re)` for a global `re`: the array of all matches, or `null`
(here `none`) when there is none. -/
def Regex.matchGlobal (r : Regex) (text : Str) : Option (List Str) :=
  match r.matchAll 0 text with
  | [] => none
  | m :: ms => some (m :: ms)

/-! ## External collaborators -/

/-- A JavaScript number: `none` is `NaN`, `some x` is a number proper (finite or
infinite), the numbers proper being the elements of a linearly ordered type `Num`. -/
abbrev JsNumber (Num : Type) := Option Num

/-- The functions `index.js` obtains from outside: the built-in
`String.prototype.toLowerCase` and `+` on numbers and, from the `natural` package,
`tokenizer.tokenize`, `analyzer.getSentiment` and the TF-IDF model. `Num` is the type
of the numbers proper. `tfidf docs term i` is the value of `tfidf.tfidf(term, i)` once
every element of `docs` has been added as a document; it may be `NaN`. `round2 x` is
`Math.round(x * 100) / 100`. -/
structure Nlp (Num : Type) where
  /-- The method `String.prototype.toLowerCase`. -/
  toLowerCase : Str → Str
  /-- The method `tokenizer.tokenize`. -/
  tokenize : Str → List Str
  /-- The method `analyzer.getSentiment`. -/
  getSentiment : List Str → JsNumber Num
  /-- The expression `Math.round(x * 100) / 100`. -/
  round2 : JsNumber Num → JsNumber Num
  /-- The method `tfidf.tfidf(term, i)` over the documents `docs`. -/
  tfidf : List Str → Str → Nat → JsNumber Num
  /-- The sum `x + y` of two numbers. -/
  add : JsNumber Num → JsNumber Num → JsNumber Num
  /-- The number `0`. -/
  zero : Num

/-! ## determineTopic -/

/-- The value stored under each topic name: `{ keywords, weight }`. -/
structure TopicData where
  /-- The keyword list of the topic. -/
  keywords : List Str
  /-- The weight of the topic, `0` in the literal. -/
  weight : Nat

/-- The object literal `topics` of `determineTopic`, as its entries in declaration
order. -/
def topics : List (Str × TopicData) :=
  [ ("politics".toList,
      ⟨["government", "minister", "election", "party", "parliament", "political", "policy",
        "vote", "democracy", "BJP", "Congress"].map String.toList, 0⟩),
    ("sports".toList,
      ⟨["cricket", "football", "game", "match", "player", "sport", "tournament", "team",
        "championship", "athlete", "IPL"].map String.toList, 0⟩),
    ("agriculture".toList,
      ⟨["farmer", "crop", "agriculture", "harvest", "farming", "irrigation", "monsoon",
        "rural", "cultivation"].map String.toList, 0⟩),
    ("business".toList,
      ⟨["market", "economy", "stock", "company", "business", "trade", "investment",
        "finance", "rupee", "industry"].map String.toList, 0⟩),
    ("technology".toList,
      ⟨["tech", "digital", "software", "internet", "cyber", "AI", "startup", "innovation",
        "mobile", "app"].map String.toList, 0⟩),
    ("entertainment".toList,
      ⟨["movie", "film", "actor", "music", "celebrity", "bollywood", "song", "star",
        "cinema", "entertainment"].map String.toList, 0⟩) ]

/-- The weight a keyword list receives from the tokens `words`:
`keywords.reduce((sum, keyword) => sum + words.filter(word => word.includes(keyword)).length, 0)`. -/
def topicWeight (words : List Str) (keywords : List Str) : Nat :=
  keywords.foldl (fun sum keyword => sum + (words.filter (fun word => includes word keyword)).length) 0

/-- The entries of `topics` after the loop that assigns every `data.weight`. -/
def weightedTopics (words : List Str) : List (Str × TopicData) :=
  topics.map (fun entry => (entry.1, ⟨entry.2.keywords, topicWeight words entry.2.keywords⟩))

/-- The array `sortedTopics`: the entries sorted with `(a, b) => b[1].weight - a[1].weight`. -/
def sortedTopics (words : List Str) : List (Str × TopicData) :=
  jsSort (fun a b => (b.2.weight : Int) - (a.2.weight : Int)) (weightedTopics words)

/-- The function `determineTopic(text)`. The empty case of the `match` does not arise:
`topics` has six entries. -/
def determineTopic {Num : Type} (nlp : Nlp Num) (text : Str) : Str :=
  let words := nlp.tokenize (nlp.toLowerCase text)
  match sortedTopics words with
  | first :: _ => if first.2.weight > 0 then first.1 else "general".toList
  | [] => "general".toList

/-! ## generateSummary -/

/-- Membership in the class `[.!?]`. -/
def isTerminator (c : Char) : Bool := c = '.' || c = '!' || c = '?'

/-- The regular expression `/[^.!?]+[.!?]+/g`. -/
def sentenceRegex : Regex :=
  .seq (.rep 1 none (.cls (fun c => !isTerminator c))) (.rep 1 none (.cls isTerminator))

/-- The array `sentences`: `text.match(/[^.!?]+[.!?]+/g) || [text]`. -/
def splitSentences (text : Str) : List Str :=
  match sentenceRegex.matchGlobal text with
  | some ms => ms
  | none => [text]

/-- An element `{ sentence, score }` of `sentenceScores`. -/
structure ScoredSentence (Num : Type) where
  /-- The sentence. -/
  sentence : Str
  /-- The sum of the TF-IDF values of its tokens. -/
  score : JsNumber Num

/-- The score of sentence number `idx`: the `forEach` loop adding `tfidf.tfidf(term, idx)`
for every token of the sentence. -/
def sentenceScore {Num : Type} (nlp : Nlp Num) (sentences : List Str)
    (idx : Nat) (sentence : Str) : JsNumber Num :=
  (nlp.tokenize sentence).foldl (fun score term => nlp.add score (nlp.tfidf sentences term idx))
    (some nlp.zero)

/-- The array `sentenceScores`. -/
def sentenceScores {Num : Type} (nlp : Nlp Num) (sentences : List Str) :
    List (ScoredSentence Num) :=
  sentences.enum.map (fun p => ⟨p.2, sentenceScore nlp sentences p.1 p.2⟩)

/-- What `sort` reads of the comparator result `x - y`: its sign when both numbers are
proper, and `0` when the difference is `NaN`, which it is as soon as `x` or `y` is
`NaN`. -/
def signOfDifference {Num : Type} [LinearOrder Num] (x y : JsNumber Num) : Int :=
  match x, y with
  | some a, some b => if b < a then 1 else if a < b then -1 else 0
  | _, _ => 0

/-- The array `topSentences`: sort by `b.score - a.score`, keep the first two, sort by
`sentences.indexOf(a.sentence) - sentences.indexOf(b.sentence)`. -/
def topSentences {Num : Type} [LinearOrder Num] (sentences : List Str)
    (scores : List (ScoredSentence Num)) : List (ScoredSentence Num) :=
  jsSort (fun a b => (sentences.indexOf a.sentence : Int) - (sentences.indexOf b.sentence : Int))
    ((jsSort (fun a b => signOfDifference b.score a.score) scores).take 2)

/-- The string `summary` before the length test:
`topSentences.map(item => item.sentence).join(' ')`. -/
def summaryOfSentences {Num : Type} [LinearOrder Num] (nlp : Nlp Num)
    (sentences : List Str) : Str :=
  join " ".toList ((topSentences sentences (sentenceScores nlp sentences)).map (fun item => item.sentence))

/-- The function `generateSummary(text, maxLength)`. -/
def generateSummary {Num : Type} [LinearOrder Num] (nlp : Nlp Num)
    (text : Str) (maxLength : Int) : Str :=
  let sentences := splitSentences text
  if sentences.length ≤ 1 then substring text 0 maxLength
  else
    let summary := summaryOfSentences nlp sentences
    if (summary.length : Int) > maxLength then substring summary 0 (maxLength - 3) ++ "...".toList
    else summary

/-- The default value of the parameter `maxLength`. -/
def defaultMaxLength : Int := 150

/-! ## extractEntities -/

/-- The array `states`. -/
def states : List Str :=
  ["Delhi", "Mumbai", "Karnataka", "Tamil Nadu", "Kerala", "Gujarat", "Maharashtra",
   "Uttar Pradesh", "Bengal", "Punjab", "Rajasthan", "Madhya Pradesh", "Telangana",
   "Andhra Pradesh", "Haryana", "Jharkhand", "Assam", "Odisha", "Chhattisgarh", "Goa"].map
    String.toList

/-- Membership in the class `\w`. -/
def isWordChar (c : Char) : Bool := c.isAlphanum || c = '_'

/-- The assertion `\b` between two neighbouring positions, either of which may lie
outside the text: exactly one side is a word character. -/
def wordBoundary (before after : Option Char) : Bool :=
  (before.any isWordChar) != (after.any isWordChar)

/-- The literal `pat` matches at the start of `s` under the `i` flag: characters are
compared after ASCII upper-casing, which is what the flag does to the ASCII letters
and spaces of the state names. -/
def startsWithIgnoreCase : Str → Str → Bool
  | [], _ => true
  | _ :: _, [] => false
  | p :: ps, c :: cs => p.toUpper = c.toUpper && startsWithIgnoreCase ps cs

/-- The pattern `\bword\b` with the `i` flag matches at the start of `s`, the character
before `s` being `before`. -/
def wholeWordAt (word : Str) (before : Option Char) (s : Str) : Bool :=
  wordBoundary before s.head? && startsWithIgnoreCase word s &&
    wordBoundary (s.take word.length).getLast? (s.drop word.length).head?

/-- The test `new RegExp('\\bword\\b', 'gi').test(text)` on a fresh regular expression:
the pattern matches at some position of the text. -/
def testWholeWord (word : Str) : Option Char → Str → Bool
  | before, [] => wholeWordAt word before []
  | before, c :: cs => wholeWordAt word before (c :: cs) || testWholeWord word (some c) cs

/-- Membership in the class `[A-Z]`. -/
def isUpperAZ (c : Char) : Bool := 'A' ≤ c && c ≤ 'Z'

/-- Membership in the class `[a-z]`. -/
def isLowerAZ (c : Char) : Bool := 'a' ≤ c && c ≤ 'z'

/-- The group `[A-Z][a-z]+`. -/
def capitalizedWord : Regex := .seq (.cls isUpperAZ) (.rep 1 none (.cls isLowerAZ))

/-- The regular expression `/(?:[A-Z][a-z]+ ){1,2}(?:[A-Z][a-z]+)/g`. -/
def nameRegex : Regex :=
  .seq (.rep 1 (some 2) (.seq capitalizedWord (.lit " ".toList))) capitalizedWord

/-- The alternation `Ltd|Limited|Corp|Corporation|Inc|Incorporated|LLC|LLP|Pvt|Private|Company`. -/
def orgSuffix : Regex :=
  .alt (.lit "Ltd".toList) (.alt (.lit "Limited".toList) (.alt (.lit "Corp".toList)
    (.alt (.lit "Corporation".toList) (.alt (.lit "Inc".toList) (.alt (.lit "Incorporated".toList)
      (.alt (.lit "LLC".toList) (.alt (.lit "LLP".toList) (.alt (.lit "Pvt".toList)
        (.alt (.lit "Private".toList) (.lit "Company".toList))))))))))

/-- The regular expression `/(?:[A-Z][a-z]* )*(?:Ltd|...|Company)/g`. -/
def orgRegex : Regex :=
  .seq (.rep 0 none (.seq (.cls isUpperAZ) (.seq (.rep 0 none (.cls isLowerAZ)) (.lit " ".toList))))
    orgSuffix

/-- The object `entities` returned by `extractEntities`. -/
structure Entities where
  /-- The state names found in the text. -/
  states : List Str
  /-- The person-like matches. -/
  people : List Str
  /-- The organization-like matches. -/
  organizations : List Str

/-- The array `text.match(re) || []`. -/
def matchesOrEmpty (re : Regex) (text : Str) : List Str :=
  match re.matchGlobal text with
  | some ms => ms
  | none => []

/-- The function `extractEntities(text)`. -/
def extractEntities (text : Str) : Entities :=
  { states := states.filter (fun state => testWholeWord state none text)
    people := uniqueInOrder (matchesOrEmpty nameRegex text)
    organizations := uniqueInOrder (matchesOrEmpty orgRegex text) }

/-! ## fetchNews -/

/-- An item of a parsed feed, with the fields `fetchNews` reads; a field the feed does
not carry is `none` (`undefined`). -/
structure RawItem where
  /-- The field `item.title`. -/
  title : Option Str
  /-- The field `item.contentSnippet`. -/
  contentSnippet : Option Str
  /-- The field `item.content`. -/
  content : Option Str
  /-- The field `item.pubDate`. -/
  pubDate : Option Str
  /-- The field `item.isoDate`. -/
  isoDate : Option Str
  /-- The field `item.link`. -/
  link : Option Str
  /-- The field `item.categories`. -/
  categories : Option (List Str)
  /-- The field `item.creator`. -/
  creator : Option Str
  /-- The field `item.author`. -/
  author : Option Str

/-- The record pushed onto `articles` for an item. -/
structure Article (Num : Type) where
  /-- The name of the source. -/
  source : Str
  /-- The title of the item, passed through. -/
  title : Option Str
  /-- The result of `determineTopic`. -/
  topic : Str
  /-- The result of `generateSummary`. -/
  summary : Str
  /-- The rounded sentiment score. -/
  sentimentScore : JsNumber Num
  /-- The field `entities.states`. -/
  affectedStates : List Str
  /-- The field `entities.people`. -/
  keyPeople : List Str
  /-- The field `entities.organizations`. -/
  organizations : List Str
  /-- The publish timestamp, or the time of processing. -/
  timestamp : Str
  /-- The length of `fullText`. -/
  contentLength : Nat
  /-- The link of the item, passed through. -/
  url : Option Str
  /-- The categories of the item, `[]` when absent. -/
  category : List Str
  /-- The author of the item, `'Unknown'` when absent. -/
  author : Str

/-- The string `fullText`:
`${item.title || ''} ${item.contentSnippet || item.content || ''}`. -/
def fullTextOf (item : RawItem) : Str :=
  orElseStr item.title [] ++ " ".toList ++ orElseStr (orElseOpt item.contentSnippet item.content) []

/-- The record built for an item whose `fullText` is long enough; `now` is the value of
`new Date().toISOString()` at that moment. -/
def articleOf {Num : Type} [LinearOrder Num] (nlp : Nlp Num)
    (sourceName now : Str) (item : RawItem) : Article Num :=
  let fullText := fullTextOf item
  let words := nlp.tokenize fullText
  let sentimentScore := nlp.getSentiment words
  let topic := determineTopic nlp fullText
  let entities := extractEntities fullText
  let summary := generateSummary nlp fullText defaultMaxLength
  Article.mk sourceName item.title topic summary (nlp.round2 sentimentScore) entities.states
    entities.people entities.organizations
    (orElseStr (orElseOpt item.pubDate item.isoDate) now)
    fullText.length item.link (item.categories.getD [])
    (orElseStr (orElseOpt item.creator item.author) "Unknown".toList)

/-- The body of the loop over the items of a feed: the array `articles` after the item
has been processed. -/
def processItem {Num : Type} [LinearOrder Num] (nlp : Nlp Num)
    (sourceName now : Str) (articles : List (Article Num)) (item : RawItem) :
    List (Article Num) :=
  if (fullTextOf item).length > 10 then articles ++ [articleOf nlp sourceName now item]
  else articles

/-- A source: `{ name, feeds }`. -/
structure Source where
  /-- The name of the publisher. -/
  name : Str
  /-- The feed URLs, in order. -/
  feeds : List Str

/-- What a run of `fetchNews` receives from outside: for every feed URL the outcome of
`parser.parseURL` (the items of the feed, or the error thrown), and the reading of the
clock while item number `i` of the feed at `url` is processed. -/
structure World where
  /-- The outcome of `await parser.parseURL(feedUrl)`: `feed.items` or the error. -/
  parseURL : Str → Except Str (List RawItem)
  /-- The value of `new Date().toISOString()` while item `i` of feed `url` is processed. -/
  now : Str → Nat → Str

/-- The body of the inner `try`: fetch the feed, then process its first five items. -/
def feedBody {Num : Type} [LinearOrder Num] (nlp : Nlp Num) (world : World)
    (sourceName : Str) (articles : List (Article Num)) (feedUrl : Str) :
    Except Str (List (Article Num)) :=
  match world.parseURL feedUrl with
  | .error e => .error e
  | .ok items =>
    .ok ((items.take 5).enum.foldl
      (fun acc p => processItem nlp sourceName (world.now feedUrl p.1) acc p.2) articles)

/-- The inner `try`/`catch`: an error thrown by the body is logged and `articles` is
left as it was. -/
def tryFeed {Num : Type} [LinearOrder Num] (nlp : Nlp Num) (world : World)
    (sourceName : Str) (articles : List (Article Num)) (feedUrl : Str) : List (Article Num) :=
  match feedBody nlp world sourceName articles feedUrl with
  | .ok articles' => articles'
  | .error _ => articles

/-- The body of the outer `try`: the loop over `source.feeds`, then `return articles`. -/
def fetchNewsBody {Num : Type} [LinearOrder Num] (nlp : Nlp Num)
    (world : World) (source : Source) : Except Str (List (Article Num)) :=
  .ok (source.feeds.foldl (tryFeed nlp world source.name) [])

/-- The function `fetchNews(source)`: the outer `catch` turns an error into `[]`. The
result is `.ok articles` when the promise resolves to `articles`. -/
def fetchNews {Num : Type} [LinearOrder Num] (nlp : Nlp Num)
    (world : World) (source : Source) : Except Str (List (Article Num)) :=
  match fetchNewsBody nlp world source with
  | .ok articles => .ok articles
  | .error _ => .ok []

/-! ## The route `GET /topics` -/

/-- The JavaScript values the route handles. -/
inductive JsValue where
  /-- The value `undefined`. -/
  | undefined
  /-- A number (a length). -/
  | num (n : Nat)
  /-- A string. -/
  | str (s : Str)
  /-- An array of strings. -/
  | strs (xs : List Str)
  /-- An object whose properties hold arrays of strings, by its entries. -/
  | obj (entries : List (Str × List Str))

/-- Property read `value.key`. A string has its `length`; no other property read by
`index.js` exists on a string, so it reads as `undefined`. -/
def getProperty : JsValue → Str → JsValue
  | .obj entries, key =>
    match entries.lookup key with
    | some xs => .strs xs
    | none => .undefined
  | .str s, key => if key = "length".toList then .num s.length else .undefined
  | .strs xs, key => if key = "length".toList then .num xs.length else .undefined
  | _, _ => .undefined

/-- The function `Object.keys(value)`: it throws a `TypeError` on `undefined`, and
returns the own enumerable property names otherwise (the indices, for a string or an
array). -/
def objectKeys : JsValue → Except Str (List Str)
  | .undefined => .error "TypeError: Cannot convert undefined or null to object".toList
  | .num _ => .ok []
  | .str s => .ok ((List.range s.length).map (fun i => (toString i).toList))
  | .strs xs => .ok ((List.range xs.length).map (fun i => (toString i).toList))
  | .obj entries => .ok (entries.map (fun e => e.1))

/-- An HTTP response: status code and the fields of the JSON body. -/
structure Response where
  /-- The HTTP status code. -/
  code : Nat
  /-- The JSON body, as its fields in order. -/
  body : List (Str × JsValue)

/-- The handler of `app.get('/topics', ...)`; `now` is `new Date().toISOString()`. The
handler does not read the request. `res.json` answers with code 200. -/
def topicsHandler {Num : Type} (nlp : Nlp Num) (now : Str) : Except Str Response :=
  match objectKeys (getProperty (.str (determineTopic nlp [])) "topics".toList) with
  | .error e => .error e
  | .ok topics =>
    .ok ⟨200, [("status".toList, .str "success".toList), ("timestamp".toList, .str now),
      ("topics".toList, .strs topics)]⟩

/-- The error-handling middleware `app.use((err, req, res, next) => ...)`, outside
development mode (`error: undefined`). -/
def errorMiddleware (_err : Str) : Response :=
  ⟨500, [("status".toList, .str "error".toList),
    ("message".toList, .str "Something went wrong!".toList), ("error".toList, .undefined)]⟩

/-- The answer to `GET /topics`: an error thrown by the handler is passed by Express to
the error-handling middleware. -/
def getTopics {Num : Type} (nlp : Nlp Num) (now : Str) : Response :=
  match topicsHandler nlp now with
  | .ok res => res
  | .error err => errorMiddleware err

/-- The field `status` of a JSON body, when it is a string. -/
def statusOf (res : Response) : Option Str :=
  match res.body.lookup "status".toList with
  | some (.str s) => some s
  | _ => none

/-- The field `topics` of a JSON body, when it is an array of strings. -/
def topicsOf (res : Response) : Option (List Str) :=
  match res.body.lookup "topics".toList with
  | some (.strs xs) => some xs
  | _ => none

/-! ## A concrete instance of the collaborators -/

/-- Membership in the class `[A-Za-zА-Яа-я0-9_]` of the word tokenizer of `natural`. -/
def isTokenChar (c : Char) : Bool :=
  c.isAlphanum || c = '_' || (0x410 ≤ c.toNat && c.toNat ≤ 0x44F)

/-- The word tokenizer of `natural`: the maximal runs of token characters. The first
argument is the run read so far. -/
def wordTokenizeFrom : Str → Str → List Str
  | cur, [] => if cur.isEmpty then [] else [cur]
  | cur, c :: cs =>
    if isTokenChar c then wordTokenizeFrom (cur ++ [c]) cs
    else if cur.isEmpty then wordTokenizeFrom [] cs
    else cur :: wordTokenizeFrom [] cs

/-- The word tokenizer of `natural` on a whole text. -/
def wordTokenize (text : Str) : List Str := wordTokenizeFrom [] text

/-- The sum of two numbers over the integers: `NaN` as soon as an operand is `NaN`. -/
def addInt : JsNumber Int → JsNumber Int → JsNumber Int
  | some a, some b => some (a + b)
  | _, _ => none

/-- An instance of the collaborators used to evaluate the definitions on concrete
inputs: ASCII lower-casing, the word tokenizer, a neutral sentiment, and a TF-IDF value
that is `1` for every token except `__proto__`, for which it is `NaN` (as in `natural`,
where the lookup of that term in a document yields an object). -/
def sampleNlp : Nlp Int :=
  { toLowerCase := fun s => s.map Char.toLower
    tokenize := wordTokenize
    getSentiment := fun _ => some 0
    round2 := fun x => x
    tfidf := fun _ term _ => if term = "__proto__".toList then none else some 1
    add := addInt
    zero := 0 }

/-! ## Specification-side definitions -/

/-- The order in which a stable sort by descending key leaves two elements tagged with
their original positions: `p` comes before `q` when the key of `p` is greater, or the
keys are equal and `p` stood earlier. -/
def Beats {α K : Type} [LinearOrder K] (key : α → K) (p q : Nat × α) : Prop :=
  key q.2 < key p.2 ∨ (key q.2 = key p.2 ∧ p.1 < q.1)

/-- The six topic names, in declaration order, as the specification lists them. -/
def topicNames : List Str :=
  ["politics", "sports", "agriculture", "business", "technology", "entertainment"].map
    String.toList

/-- The weight of a keyword list as the specification words it: the sum, over the
keywords, of the number of tokens that contain the keyword as a substring. -/
def specWeight (words keywords : List Str) : Nat :=
  (keywords.map (fun keyword => words.countP (fun word => decide (keyword <:+: word)))).sum

/-- The weight, in the specification's words, of topic number `i` (in declaration
order) for a text: the tokens are those of the lower-cased text, the keywords those of
the table `topics`. -/
def weightOf {Num : Type} (nlp : Nlp Num) (text : Str) (i : Nat) : Nat :=
  match topics[i]? with
  | some entry => specWeight (nlp.tokenize (nlp.toLowerCase text)) entry.2.keywords
  | none => 0

/-- The comparison `x < y` of two JavaScript numbers: false as soon as one is `NaN`. -/
def jsLess {Num : Type} [LinearOrder Num] : JsNumber Num → JsNumber Num → Bool
  | some a, some b => decide (a < b)
  | _, _ => false

/-- The sentence at position `i`, of score `x`, outranks the one at position `k`, of
score `y`: a higher score, or the same score and an earlier position. -/
def Outranks {Num : Type} [LinearOrder Num] (x : JsNumber Num) (i : Nat) (y : JsNumber Num)
    (k : Nat) : Prop :=
  jsLess y x = true ∨ (y = x ∧ i < k)

/-- The summary built from `sentences` is the two highest-scoring sentences (the earlier
one winning a tie in score) joined by a single space, the one of smaller position
first: it is `si ++ " " ++ sj` for two positions `i < j` that outrank every other
position. -/
def TopTwoSummary {Num : Type} [LinearOrder Num] (nlp : Nlp Num) (sentences : List Str) : Prop :=
  ∃ (i j : Nat) (si sj : Str), i < j ∧ sentences[i]? = some si ∧ sentences[j]? = some sj ∧
    summaryOfSentences nlp sentences = si ++ " ".toList ++ sj ∧
    ∀ (k : Nat) (sk : Str), sentences[k]? = some sk → k ≠ i → k ≠ j →
      Outranks (sentenceScore nlp sentences i si) i (sentenceScore nlp sentences k sk) k ∧
      Outranks (sentenceScore nlp sentences j sj) j (sentenceScore nlp sentences k sk) k

/-- The score of a scored sentence as a sort key, `NaN` placed below the numbers
proper. -/
def scoreKey {Num : Type} (x : ScoredSentence Num) : WithBot Num := x.score

/-- A text of three sentences whose second sentence holds the token `__proto__`. -/
def nanText : Str := "Rain fell. The __proto__ key. Farmers harvest wheat crops.".toList

/-! ## Timestamps and sample items -/

/-- The expression `item.pubDate || item.isoDate` is truthy: the item carries a publish
timestamp. -/
def hasTimestamp (item : RawItem) : Bool :=
  match orElseOpt item.pubDate item.isoDate with
  | some (_ :: _) => true
  | _ => false

/-- An article with its `timestamp` field blanked. -/
def withoutTimestamp {Num : Type} (a : Article Num) : Article Num :=
  Article.mk a.source a.title a.topic a.summary a.sentimentScore a.affectedStates a.keyPeople
    a.organizations [] a.contentLength a.url a.category a.author

/-- An item without publish timestamp. -/
def undatedItem : RawItem :=
  { title := some "Farmers protest over crop prices".toList
    contentSnippet := none
    content := none
    pubDate := none
    isoDate := none
    link := some "http://x/1".toList
    categories := none
    creator := none
    author := none }

/-- An item with a publish timestamp. -/
def datedItem : RawItem :=
  { title := some "Farmers protest over crop prices".toList
    contentSnippet := none
    content := none
    pubDate := some "Mon, 01 Jan 2024 00:00:00 GMT".toList
    isoDate := none
    link := some "http://x/1".toList
    categories := none
    creator := none
    author := none }

/-- An item whose `fullText` has 8 characters. -/
def shortItem : RawItem :=
  { title := some "Hi".toList
    contentSnippet := some "there".toList
    content := none
    pubDate := none
    isoDate := none
    link := none
    categories := none
    creator := none
    author := none }

/-! ## Properties: strings -/

theorem orElseStr_nil (a : Option Str) : orElseStr a [] = a.getD [] := by
  cases a with
  | none => rfl
  | some s => cases s <;> rfl

theorem fullTextOf_eq (item : RawItem) :
    fullTextOf item =
      item.title.getD [] ++ [' '] ++ (orElseOpt item.contentSnippet item.content).getD [] := by
  simp [fullTextOf, orElseStr_nil]

theorem length_substring_zero (s : Str) (stop : Int) :
    (substring s 0 stop).length ≤ stop.toNat := by
  simp only [substring, clampIndex, List.length_take, List.length_drop]
  omega

/-! ## Properties: the matcher -/

theorem run_alt_none (a b : Regex) (s : Str) (k : Str → Option Str)
    (ha : a.run s k = none) (hb : b.run s k = none) : (Regex.alt a b).run s k = none := by
  show (match a.run s k with
    | some out => some out
    | none => b.run s k) = none
  rw [ha]
  exact hb

theorem repeatGreedy_fail (m : Str → (Str → Option Str) → Option Str)
    (hm : ∀ s, m s (fun _ => none) = none) (n lo : Nat) (hi : Option Nat) (s : Str) :
    repeatGreedy m n lo hi s (fun _ => none) = none := by
  induction n generalizing lo hi s with
  | zero => simp [repeatGreedy]
  | succ n ih =>
    have hk : (fun r : Str =>
        if r.length < s.length then
          repeatGreedy m n (lo - 1) (hi.map (· - 1)) r (fun _ => none)
        else none) = fun _ => none := by
      funext r
      split_ifs
      · exact ih _ _ _
      · rfl
    rw [repeatGreedy, hk, hm]
    simp

/-- A matcher succeeds only through its continuation. -/
theorem Regex.run_fail (r : Regex) : ∀ s : Str, r.run s (fun _ => none) = none := by
  induction r with
  | cls p =>
    intro s
    cases s with
    | nil => rfl
    | cons c cs => simp [Regex.run]
  | lit l =>
    intro s
    simp [Regex.run]
  | seq a b iha ihb =>
    intro s
    have hb : (fun rest : Str => b.run rest (fun _ => none)) = fun _ => none := funext ihb
    show a.run s (fun rest => b.run rest (fun _ => none)) = none
    rw [hb]
    exact iha s
  | alt a b iha ihb =>
    intro s
    exact run_alt_none a b s _ (iha s) (ihb s)
  | rep lo hi a iha =>
    intro s
    exact repeatGreedy_fail a.run iha s.length lo hi s

/-- The bound carried by the repetition loop does not cut a match short: for a
well-formed quantifier, any bound that is at least the length of the input gives the
same result. -/
theorem repeatGreedy_bound (a : Regex) (n : Nat) :
    ∀ (lo : Nat) (hi : Option Nat) (s : Str) (k : Str → Option Str),
      (∀ h, hi = some h → lo ≤ h) → s.length ≤ n →
      repeatGreedy a.run (n + 1) lo hi s k = repeatGreedy a.run n lo hi s k := by
  induction n with
  | zero =>
    intro lo hi s k hwf hs
    have hnil : s = [] := List.length_eq_zero.1 (Nat.le_zero.1 hs)
    subst hnil
    have hk : (fun r : Str =>
        if r.length < ([] : Str).length then
          repeatGreedy a.run 0 (lo - 1) (hi.map (· - 1)) r k
        else none) = fun _ => none := by
      funext r
      simp
    show (if hi = some 0 then k [] else
        match a.run [] (fun r : Str =>
          if r.length < ([] : Str).length then
            repeatGreedy a.run 0 (lo - 1) (hi.map (· - 1)) r k
          else none) with
        | some out => some out
        | none => if lo = 0 then k [] else none) = if lo = 0 then k [] else none
    rw [hk, Regex.run_fail a]
    by_cases h0 : hi = some 0
    · have hlo : lo = 0 := Nat.le_zero.1 (hwf 0 h0)
      simp [repeatGreedy, h0, hlo]
    · simp [repeatGreedy, h0]
  | succ n ih =>
    intro lo hi s k hwf hs
    have hk : (fun r : Str =>
        if r.length < s.length then
          repeatGreedy a.run (n + 1) (lo - 1) (hi.map (· - 1)) r k
        else none) =
        fun r : Str =>
          if r.length < s.length then repeatGreedy a.run n (lo - 1) (hi.map (· - 1)) r k
          else none := by
      funext r
      split_ifs with hr
      · apply ih
        · intro h hh
          cases hi with
          | none => cases hh
          | some h' =>
            have := hwf h' rfl
            simp only [Option.map_some', Option.some.injEq] at hh
            omega
        · omega
      · rfl
    rw [repeatGreedy, hk]
    conv_rhs => rw [repeatGreedy]

/-! ## Properties: the enrichment step -/

/-- C1: with `fullText` the title (empty when absent), one space and the body snippet
(`contentSnippet`, else `content`, empty when absent), the enrichment step leaves
`articles` unchanged when `fullText` has at most 10 characters, and appends exactly one
article, built from the item, when it has more than 10. -/
theorem processItem_length_gate {Num : Type} [LinearOrder Num]
    (nlp : Nlp Num) (sourceName now : Str) (articles : List (Article Num)) (item : RawItem)
    (fullText : Str)
    (hfull : fullText =
      item.title.getD [] ++ [' '] ++ (orElseOpt item.contentSnippet item.content).getD []) :
    (fullText.length ≤ 10 → processItem nlp sourceName now articles item = articles) ∧
    (10 < fullText.length →
      ∃ a : Article Num, processItem nlp sourceName now articles item = articles ++ [a] ∧
        a.source = sourceName ∧ a.title = item.title ∧ a.url = item.link ∧
        a.contentLength = fullText.length) := by
  have hft : fullTextOf item = fullText := by rw [hfull, fullTextOf_eq]
  constructor
  · intro h
    have : ¬ (fullTextOf item).length > 10 := by rw [hft]; omega
    simp [processItem, this]
  · intro h
    have : (fullTextOf item).length > 10 := by rw [hft]; exact h
    refine ⟨articleOf nlp sourceName now item, ?_, rfl, rfl, rfl, ?_⟩
    · simp [processItem, this]
    · simp [articleOf, hft]

/-! ## Properties: generateSummary -/

theorem generateSummary_length_le {Num : Type} [LinearOrder Num]
    (nlp : Nlp Num) (text : Str) (m : Int) (hm : 3 ≤ m) :
    ((generateSummary nlp text m).length : Int) ≤ m := by
  unfold generateSummary
  simp only
  split_ifs with h1 h2
  · have := length_substring_zero text m
    omega
  · have := length_substring_zero (summaryOfSentences nlp (splitSentences text)) (m - 3)
    have h3 : "...".toList.length = 3 := rfl
    rw [List.length_append, h3]
    push_cast
    omega
  · omega

/-- C4: called with the default maximum length, `generateSummary` returns a string of at
most 150 characters. -/
theorem generateSummary_default_length {Num : Type} [LinearOrder Num]
    (nlp : Nlp Num) (text : Str) :
    (generateSummary nlp text defaultMaxLength).length ≤ 150 ∧ defaultMaxLength = 150 := by
  have h := generateSummary_length_le nlp text defaultMaxLength (by decide)
  have hd : defaultMaxLength = 150 := rfl
  rw [hd] at h
  exact ⟨by exact_mod_cast h, hd⟩

/-- Below a maximum length of 3, a summary of several sentences that does not fit is
replaced by the bare ellipsis: `substring(0, maxLength - 3)` is empty. -/
theorem generateSummary_of_small_max {Num : Type} [LinearOrder Num]
    (nlp : Nlp Num) (text : Str) (m : Int) (hm : m < 3)
    (hlen : 2 ≤ (splitSentences text).length)
    (hlong : m < ((summaryOfSentences nlp (splitSentences text)).length : Int)) :
    generateSummary nlp text m = "...".toList := by
  unfold generateSummary
  simp only
  rw [if_neg (by omega), if_pos hlong]
  have h0 : (m - 3).toNat = 0 := by omega
  simp [substring, clampIndex, h0]

/-! ## Properties: the route `GET /topics` -/

/-- C8: whatever the collaborators and the clock, the handler of `GET /topics` throws
(`determineTopic('')` is a string, its property `topics` is `undefined`, and
`Object.keys(undefined)` throws), so the answer is the one of the error middleware:
code 500, status `error`, and no list of topics. -/
theorem getTopics_answers_error {Num : Type} (nlp : Nlp Num) (now : Str) :
    getTopics nlp now =
        errorMiddleware "TypeError: Cannot convert undefined or null to object".toList ∧
      (getTopics nlp now).code = 500 ∧
      statusOf (getTopics nlp now) = some "error".toList ∧
      topicsOf (getTopics nlp now) = none := by
  have hkey : ("topics".toList = "length".toList) = False := by decide
  have h : getTopics nlp now =
      errorMiddleware "TypeError: Cannot convert undefined or null to object".toList := by
    simp only [getTopics, topicsHandler, getProperty, hkey, if_false, objectKeys]
  rw [h]
  exact ⟨rfl, rfl, by decide, by decide⟩

/-! ## Properties: determineTopic on the upper-case keywords -/

/-- C3: `BJP` is a keyword of `politics`, yet for every instance of the collaborators
that lower-cases and tokenizes the text `BJP` to the single token `bjp`,
`determineTopic` returns `general` on it. -/
theorem determineTopic_BJP_general {Num : Type} (nlp : Nlp Num)
    (htok : nlp.tokenize (nlp.toLowerCase "BJP".toList) = ["bjp".toList]) :
    determineTopic nlp "BJP".toList = "general".toList ∧
      ∃ data, ("politics".toList, data) ∈ topics ∧ "BJP".toList ∈ data.keywords := by
  constructor
  · unfold determineTopic
    rw [htok]
    decide
  · exact ⟨_, List.mem_cons_self _ _, by decide⟩

/-- Each of the four keywords spelled with capitals, taken as a text, is classified as
`general` by the sample instance: a lower-cased token never contains them. -/
theorem determineTopic_capital_keywords :
    determineTopic sampleNlp "BJP".toList = "general".toList ∧
      determineTopic sampleNlp "Congress".toList = "general".toList ∧
      determineTopic sampleNlp "IPL".toList = "general".toList ∧
      determineTopic sampleNlp "AI".toList = "general".toList ∧
      determineTopic sampleNlp "BJP Congress".toList = "general".toList := by
  decide

theorem determineTopic_BJP_general_witness :
    sampleNlp.tokenize (sampleNlp.toLowerCase "BJP".toList) = ["bjp".toList] ∧
      determineTopic sampleNlp "BJP".toList = "general".toList :=
  ⟨by decide, (determineTopic_BJP_general sampleNlp (by decide)).1⟩

/-! ## Properties: repeating the enrichment step -/

/-- C6, as stated, fails: on an item without publish timestamp, two runs of the
enrichment step at different clock readings yield records with different `timestamp`
fields. -/
theorem processItem_twice_differs :
    processItem sampleNlp "S".toList "2024-01-01T00:00:00.000Z".toList [] undatedItem ≠
      processItem sampleNlp "S".toList "2024-01-01T00:00:00.001Z".toList [] undatedItem := by
  intro h
  have h2 := congrArg (List.map (fun a : Article Int => a.timestamp)) h
  revert h2
  decide

theorem timestamp_of_dated {Num : Type} [LinearOrder Num] (nlp : Nlp Num)
    (sourceName now₁ now₂ : Str) (item : RawItem) (h : hasTimestamp item = true) :
    articleOf nlp sourceName now₁ item = articleOf nlp sourceName now₂ item := by
  unfold hasTimestamp at h
  unfold articleOf
  simp only
  cases hts : orElseOpt item.pubDate item.isoDate with
  | none => rw [hts] at h; cases h
  | some s =>
    cases s with
    | nil => rw [hts] at h; cases h
    | cons c cs => rfl

theorem timestamp_of_undated {Num : Type} [LinearOrder Num] (nlp : Nlp Num)
    (sourceName now : Str) (item : RawItem) (h : hasTimestamp item = false) :
    (articleOf nlp sourceName now item).timestamp = now := by
  unfold hasTimestamp at h
  unfold articleOf
  simp only
  cases hts : orElseOpt item.pubDate item.isoDate with
  | none => rfl
  | some s =>
    cases s with
    | nil => rfl
    | cons c cs => rw [hts] at h; cases h

/-- C6, amended: two runs of the enrichment step on the same item, at clock readings
`now₁` and `now₂`, yield equal records when the item carries a publish timestamp
(`pubDate` or `isoDate`); in every case the records agree on all fields other than
`timestamp`; and when the item carries no publish timestamp and is long enough to be
emitted, each run appends one record whose `timestamp` is the clock reading of that
run. -/
theorem processItem_twice_same {Num : Type} [LinearOrder Num]
    (nlp : Nlp Num) (sourceName now₁ now₂ : Str) (articles : List (Article Num))
    (item : RawItem) :
    (hasTimestamp item = true →
      processItem nlp sourceName now₁ articles item =
        processItem nlp sourceName now₂ articles item) ∧
    (processItem nlp sourceName now₁ articles item).map withoutTimestamp =
      (processItem nlp sourceName now₂ articles item).map withoutTimestamp ∧
    (hasTimestamp item = false → 10 < (fullTextOf item).length →
      ∃ a₁ a₂ : Article Num,
        processItem nlp sourceName now₁ articles item = articles ++ [a₁] ∧
        processItem nlp sourceName now₂ articles item = articles ++ [a₂] ∧
        a₁.timestamp = now₁ ∧ a₂.timestamp = now₂) := by
  refine ⟨?_, ?_, ?_⟩
  · intro h
    simp only [processItem, timestamp_of_dated nlp sourceName now₁ now₂ item h]
  · unfold processItem
    split_ifs
    · simp only [List.map_append, List.map_cons, List.map_nil]
      rfl
    · rfl
  · intro h hlong
    refine ⟨articleOf nlp sourceName now₁ item, articleOf nlp sourceName now₂ item, ?_, ?_,
      timestamp_of_undated nlp sourceName now₁ item h,
      timestamp_of_undated nlp sourceName now₂ item h⟩
    · simp [processItem, hlong]
    · simp [processItem, hlong]

theorem processItem_twice_same_witness :
    (hasTimestamp datedItem = true ∧
      processItem sampleNlp "S".toList "2024-01-01T00:00:00.000Z".toList [] datedItem =
        processItem sampleNlp "S".toList "2024-01-01T00:00:00.001Z".toList [] datedItem) ∧
    (hasTimestamp undatedItem = false ∧
      ∃ a₁ a₂ : Article Int,
        processItem sampleNlp "S".toList "2024-01-01T00:00:00.000Z".toList [] undatedItem =
          [] ++ [a₁] ∧
        processItem sampleNlp "S".toList "2024-01-01T00:00:00.001Z".toList [] undatedItem =
          [] ++ [a₂] ∧
        a₁.timestamp = "2024-01-01T00:00:00.000Z".toList ∧
        a₂.timestamp = "2024-01-01T00:00:00.001Z".toList) :=
  ⟨⟨by decide, (processItem_twice_same sampleNlp _ _ _ [] datedItem).1 (by decide)⟩,
    ⟨by decide, (processItem_twice_same sampleNlp _ _ _ [] undatedItem).2.2 (by decide)
      (by decide)⟩⟩

theorem processItem_length_gate_witness :
    processItem sampleNlp "S".toList [] [] shortItem = [] ∧
      ∃ a : Article Int,
        processItem sampleNlp "S".toList [] [] datedItem = [] ++ [a] ∧
          a.source = "S".toList ∧ a.title = datedItem.title ∧ a.url = datedItem.link ∧
          a.contentLength = "Farmers protest over crop prices ".toList.length :=
  ⟨(processItem_length_gate sampleNlp "S".toList [] [] shortItem "Hi there".toList
      (by decide)).1 (by decide),
    (processItem_length_gate sampleNlp "S".toList [] [] datedItem
      "Farmers protest over crop prices ".toList (by decide)).2 (by decide)⟩

/-! ## Properties: extractEntities on text without capitals -/

theorem run_cls_upper_none (s : Str) (k : Str → Option Str)
    (h : ∀ c ∈ s.head?, isUpperAZ c = false) : (Regex.cls isUpperAZ).run s k = none := by
  cases s with
  | nil => rfl
  | cons c cs =>
    have hc : isUpperAZ c = false := h c rfl
    simp [Regex.run, hc]

theorem run_lit_upper_none (u : Char) (rest s : Str) (k : Str → Option Str)
    (hu : isUpperAZ u = true) (h : ∀ c ∈ s.head?, isUpperAZ c = false) :
    (Regex.lit (u :: rest)).run s k = none := by
  cases s with
  | nil => rfl
  | cons c cs =>
    have hc : isUpperAZ c = false := h c rfl
    have hne : u ≠ c := by
      intro heq
      rw [heq, hc] at hu
      cases hu
    simp [Regex.run, List.isPrefixOf, hne]

theorem repeatGreedy_of_fail_pos (m : Str → (Str → Option Str) → Option Str) (n lo : Nat)
    (hi : Option Nat) (s : Str) (k : Str → Option Str) (hm : ∀ k', m s k' = none)
    (hlo : lo ≠ 0) (hhi : hi ≠ some 0) : repeatGreedy m n lo hi s k = none := by
  cases n with
  | zero => simp [repeatGreedy, hlo]
  | succ n => simp [repeatGreedy, hlo, hhi, hm]

theorem repeatGreedy_of_fail_zero (m : Str → (Str → Option Str) → Option Str) (n : Nat)
    (hi : Option Nat) (s : Str) (k : Str → Option Str) (hm : ∀ k', m s k' = none) :
    repeatGreedy m n 0 hi s k = k s := by
  cases n with
  | zero => simp [repeatGreedy]
  | succ n => simp [repeatGreedy, hm]

theorem run_nameRegex_none (s : Str) (k : Str → Option Str)
    (h : ∀ c ∈ s.head?, isUpperAZ c = false) : nameRegex.run s k = none := by
  have hX : ∀ k', (Regex.seq capitalizedWord (.lit " ".toList)).run s k' = none :=
    fun k' => run_cls_upper_none s _ h
  exact repeatGreedy_of_fail_pos _ s.length 1 (some 2) s _ hX (by decide) (by decide)

theorem run_orgSuffix_none (s : Str) (k : Str → Option Str)
    (h : ∀ c ∈ s.head?, isUpperAZ c = false) : orgSuffix.run s k = none := by
  have hL : ∀ rest, (Regex.lit ('L' :: rest)).run s k = none :=
    fun rest => run_lit_upper_none 'L' rest s k (by decide) h
  have hC : ∀ rest, (Regex.lit ('C' :: rest)).run s k = none :=
    fun rest => run_lit_upper_none 'C' rest s k (by decide) h
  have hI : ∀ rest, (Regex.lit ('I' :: rest)).run s k = none :=
    fun rest => run_lit_upper_none 'I' rest s k (by decide) h
  have hP : ∀ rest, (Regex.lit ('P' :: rest)).run s k = none :=
    fun rest => run_lit_upper_none 'P' rest s k (by decide) h
  have e1 : (Regex.lit "Ltd".toList).run s k = none := hL _
  have e2 : (Regex.lit "Limited".toList).run s k = none := hL _
  have e3 : (Regex.lit "Corp".toList).run s k = none := hC _
  have e4 : (Regex.lit "Corporation".toList).run s k = none := hC _
  have e5 : (Regex.lit "Inc".toList).run s k = none := hI _
  have e6 : (Regex.lit "Incorporated".toList).run s k = none := hI _
  have e7 : (Regex.lit "LLC".toList).run s k = none := hL _
  have e8 : (Regex.lit "LLP".toList).run s k = none := hL _
  have e9 : (Regex.lit "Pvt".toList).run s k = none := hP _
  have e10 : (Regex.lit "Private".toList).run s k = none := hP _
  have e11 : (Regex.lit "Company".toList).run s k = none := hC _
  exact run_alt_none _ _ s k e1 (run_alt_none _ _ s k e2 (run_alt_none _ _ s k e3
    (run_alt_none _ _ s k e4 (run_alt_none _ _ s k e5 (run_alt_none _ _ s k e6
      (run_alt_none _ _ s k e7 (run_alt_none _ _ s k e8 (run_alt_none _ _ s k e9
        (run_alt_none _ _ s k e10 e11)))))))))

theorem run_orgRegex_none (s : Str) (k : Str → Option Str)
    (h : ∀ c ∈ s.head?, isUpperAZ c = false) : orgRegex.run s k = none := by
  have hY : ∀ k', (Regex.seq (.cls isUpperAZ)
      (.seq (.rep 0 none (.cls isLowerAZ)) (.lit " ".toList))).run s k' = none :=
    fun k' => run_cls_upper_none s _ h
  have hloop := repeatGreedy_of_fail_zero _ s.length none s
    (fun rest => orgSuffix.run rest k) hY
  exact hloop.trans (run_orgSuffix_none s k h)

theorem matchAll_eq_nil (r : Regex) (hfail : ∀ s : Str, (∀ c ∈ s, isUpperAZ c = false) →
    r.run s some = none) :
    ∀ text : Str, (∀ c ∈ text, isUpperAZ c = false) → r.matchAll 0 text = [] := by
  intro text
  induction text with
  | nil =>
    intro h
    simp [Regex.matchAll, Regex.exec, hfail [] h]
  | cons c cs ih =>
    intro h
    have hcs : ∀ d ∈ cs, isUpperAZ d = false := fun d hd => h d (List.mem_cons_of_mem _ hd)
    simp [Regex.matchAll, Regex.exec, hfail (c :: cs) h, ih hcs]

theorem head_of_all (s : Str) (h : ∀ c ∈ s, isUpperAZ c = false) :
    ∀ c ∈ s.head?, isUpperAZ c = false := by
  intro c hc
  cases s with
  | nil => cases hc
  | cons d ds =>
    have : d = c := by simpa using hc
    exact h c (this ▸ List.mem_cons_self _ _)

/-- C7: for every text without a letter `A` to `Z` (so for every text without an
upper-case letter), `extractEntities` returns an empty `people` list and an empty
`organizations` list. -/
theorem extractEntities_lowercase (text : Str) (h : ∀ c ∈ text, isUpperAZ c = false) :
    (extractEntities text).people = [] ∧ (extractEntities text).organizations = [] := by
  have hn : nameRegex.matchAll 0 text = [] :=
    matchAll_eq_nil nameRegex (fun s hs => run_nameRegex_none s some (head_of_all s hs)) text h
  have ho : orgRegex.matchAll 0 text = [] :=
    matchAll_eq_nil orgRegex (fun s hs => run_orgRegex_none s some (head_of_all s hs)) text h
  simp [extractEntities, matchesOrEmpty, Regex.matchGlobal, hn, ho, uniqueInOrder]

theorem extractEntities_lowercase_witness :
    (extractEntities "acme private limited met ravi kumar in kerala.".toList).people = [] ∧
      (extractEntities "acme private limited met ravi kumar in kerala.".toList).organizations
        = [] :=
  extractEntities_lowercase _ (by decide)

/-! ## Properties: fetchNews and failing feeds -/

theorem foldl_filter_of_skip {α β : Type} (f : β → α → β) (p : α → Bool)
    (hskip : ∀ acc a, p a = false → f acc a = acc) (l : List α) (acc : β) :
    (l.filter p).foldl f acc = l.foldl f acc := by
  induction l generalizing acc with
  | nil => rfl
  | cons a l ih =>
    cases hp : p a with
    | false => simp [List.filter, hp, hskip acc a hp, ih]
    | true => simp [List.filter, hp, ih]

theorem processItem_append {Num : Type} [LinearOrder Num] (nlp : Nlp Num)
    (sourceName now : Str) (articles : List (Article Num)) (item : RawItem) :
    processItem nlp sourceName now articles item =
      articles ++ processItem nlp sourceName now [] item := by
  unfold processItem
  split_ifs <;> simp

theorem foldl_append_of_step {α β : Type} (f : List β → α → List β)
    (hstep : ∀ acc a, f acc a = acc ++ f [] a) (l : List α) (acc : List β) :
    l.foldl f acc = acc ++ (l.map (f [])).flatten := by
  induction l generalizing acc with
  | nil => simp
  | cons a l ih =>
    rw [List.foldl_cons, ih, hstep acc a]
    simp

theorem foldl_append_nil {α β : Type} (f : List β → α → List β)
    (hstep : ∀ acc a, f acc a = acc ++ f [] a) (l : List α) (acc : List β) :
    l.foldl f acc = acc ++ l.foldl f [] := by
  rw [foldl_append_of_step f hstep l acc, foldl_append_of_step f hstep l []]
  simp

theorem tryFeed_append {Num : Type} [LinearOrder Num] (nlp : Nlp Num)
    (world : World) (sourceName : Str) (articles : List (Article Num)) (feedUrl : Str) :
    tryFeed nlp world sourceName articles feedUrl =
      articles ++ tryFeed nlp world sourceName [] feedUrl := by
  unfold tryFeed feedBody
  cases world.parseURL feedUrl with
  | error e => simp
  | ok items =>
    exact foldl_append_nil
      (fun acc (p : Nat × RawItem) => processItem nlp sourceName (world.now feedUrl p.1) acc p.2)
      (fun acc p => processItem_append nlp sourceName _ acc p.2) _ articles

theorem tryFeed_of_failure {Num : Type} [LinearOrder Num] (nlp : Nlp Num)
    (world : World) (sourceName : Str) (articles : List (Article Num)) (feedUrl : Str)
    (h : (world.parseURL feedUrl).toBool = false) :
    tryFeed nlp world sourceName articles feedUrl = articles := by
  unfold tryFeed feedBody
  cases hp : world.parseURL feedUrl with
  | error e => rfl
  | ok items => rw [hp] at h; cases h

/-- C9: for every source and every outcome of the fetches of its feeds, `fetchNews`
resolves to the concatenation, in feed order, of what each feed contributes on its own;
a feed whose fetch or parse fails contributes nothing; and the result is the one
obtained from the source with the failing feeds removed from its feed list. -/
theorem fetchNews_skips_failed_feeds {Num : Type} [LinearOrder Num]
    (nlp : Nlp Num) (world : World) (source : Source) :
    fetchNews nlp world source =
        .ok ((source.feeds.map (tryFeed nlp world source.name [])).flatten) ∧
      (∀ url, (world.parseURL url).toBool = false →
        tryFeed nlp world source.name [] url = []) ∧
      fetchNews nlp world
          ⟨source.name, source.feeds.filter (fun url => (world.parseURL url).toBool)⟩ =
        fetchNews nlp world source := by
  refine ⟨?_, fun url h => tryFeed_of_failure nlp world source.name [] url h, ?_⟩
  · simp only [fetchNews, fetchNewsBody]
    rw [foldl_append_of_step _ (tryFeed_append nlp world source.name)]
    simp
  · simp only [fetchNews, fetchNewsBody]
    rw [foldl_filter_of_skip _ _
      (fun acc url h => tryFeed_of_failure nlp world source.name acc url h)]

/-! ## Properties: the stable sort -/

theorem Beats.trans {α K : Type} [LinearOrder K] {key : α → K} {p q t : Nat × α}
    (h₁ : Beats key p q) (h₂ : Beats key q t) : Beats key p t := by
  unfold Beats at *
  rcases h₁ with h₁ | ⟨e₁, l₁⟩ <;> rcases h₂ with h₂ | ⟨e₂, l₂⟩
  · exact Or.inl (lt_trans h₂ h₁)
  · exact Or.inl (e₂ ▸ h₁)
  · exact Or.inl (e₁ ▸ h₂)
  · exact Or.inr ⟨e₂.trans e₁, lt_trans l₁ l₂⟩

theorem pairwise_orderedInsert_stable {α K : Type} [LinearOrder K] (key : α → K)
    (r : α → α → Prop) [DecidableRel r]
    (a : Nat × α) (zs : List (Nat × α)) (hr : ∀ z ∈ zs, r a.2 z.2 ↔ key z.2 ≤ key a.2)
    (hlt : ∀ z ∈ zs, a.1 < z.1)
    (hzs : zs.Pairwise (Beats key)) :
    (zs.orderedInsert (fun p q => r p.2 q.2) a).Pairwise (Beats key) := by
  induction zs with
  | nil => simp
  | cons b t ih =>
    rw [List.pairwise_cons] at hzs
    have hb : a.1 < b.1 := hlt b (List.mem_cons_self _ _)
    have ht : ∀ z ∈ t, a.1 < z.1 := fun z hz => hlt z (List.mem_cons_of_mem _ hz)
    have hrb := hr b (List.mem_cons_self _ _)
    have hrt : ∀ z ∈ t, r a.2 z.2 ↔ key z.2 ≤ key a.2 :=
      fun z hz => hr z (List.mem_cons_of_mem _ hz)
    by_cases hab : r a.2 b.2
    · have hbeat : Beats key a b := by
        rcases lt_or_eq_of_le (hrb.1 hab) with h | h
        · exact Or.inl h
        · exact Or.inr ⟨h, hb⟩
      rw [List.orderedInsert, if_pos hab, List.pairwise_cons]
      refine ⟨?_, List.pairwise_cons.2 hzs⟩
      intro z hz
      rcases List.mem_cons.1 hz with rfl | hz
      · exact hbeat
      · exact hbeat.trans (hzs.1 z hz)
    · have hlt' : key a.2 < key b.2 := lt_of_not_le (fun h => hab (hrb.2 h))
      rw [List.orderedInsert, if_neg hab, List.pairwise_cons]
      refine ⟨?_, ih hrt ht hzs.2⟩
      intro z hz
      rcases (List.mem_orderedInsert _).1 hz with rfl | hz
      · exact Or.inl hlt'
      · exact hzs.1 z hz

theorem pairwise_insertionSort_stable {α K : Type} [LinearOrder K] (key : α → K)
    (r : α → α → Prop) [DecidableRel r] (ys : List (Nat × α))
    (hr : ∀ p ∈ ys, ∀ q ∈ ys, r p.2 q.2 ↔ key q.2 ≤ key p.2)
    (hys : ys.Pairwise (fun p q => p.1 < q.1)) :
    (ys.insertionSort (fun p q => r p.2 q.2)).Pairwise (Beats key) := by
  induction ys with
  | nil => simp
  | cons a l ih =>
    rw [List.pairwise_cons] at hys
    rw [List.insertionSort]
    refine pairwise_orderedInsert_stable key r a _ ?_ ?_
      (ih (fun p hp q hq => hr p (List.mem_cons_of_mem _ hp) q (List.mem_cons_of_mem _ hq))
        hys.2)
    · intro z hz
      exact hr a (List.mem_cons_self _ _) z
        (List.mem_cons_of_mem _ ((List.mem_insertionSort _).1 hz))
    · intro z hz
      exact hys.1 z ((List.mem_insertionSort _).1 hz)

/-- The stable sort by descending key, seen on the elements tagged with their original
positions: the result lists every tagged element once, and each one beats all those
after it. The relation `r` has to agree with the order of the keys on the elements of
the list only. -/
theorem insertionSort_stable_desc {α K : Type} [LinearOrder K] (key : α → K)
    (r : α → α → Prop) [DecidableRel r] (xs : List α)
    (hr : ∀ a ∈ xs, ∀ b ∈ xs, r a b ↔ key b ≤ key a) :
    ∃ zs : List (Nat × α), xs.insertionSort r = zs.map Prod.snd ∧ zs.Perm xs.enum ∧
      zs.Pairwise (Beats key) := by
  have hmem : ∀ p ∈ xs.enum, p.2 ∈ xs := by
    intro p hp
    have h : (p.1, p.2) ∈ xs.enum := hp
    exact List.getElem?_mem (List.mk_mem_enum_iff_getElem?.1 h)
  refine ⟨xs.enum.insertionSort (fun p q => r p.2 q.2), ?_, List.perm_insertionSort _ _, ?_⟩
  · rw [List.map_insertionSort (fun p q : Nat × α => r p.2 q.2) r Prod.snd xs.enum
      (fun _ _ _ _ => Iff.rfl), List.enum_map_snd]
  · apply pairwise_insertionSort_stable key r xs.enum
      (fun p hp q hq => hr p.2 (hmem p hp) q.2 (hmem q hq))
    have h := List.pairwise_lt_range xs.length
    rw [← List.enum_map_fst, List.pairwise_map] at h
    exact h

/-! ## Properties: determineTopic -/

theorem includes_iff (w k : Str) : includes w k = true ↔ k <:+: w := by
  induction w with
  | nil => simp [includes, List.isEmpty_iff]
  | cons c cs ih =>
    rw [includes, Bool.or_eq_true, ih, List.infix_cons_iff, List.isPrefixOf_iff_prefix]

theorem foldl_add_eq_sum {α : Type} (f : α → Nat) (l : List α) (init : Nat) :
    l.foldl (fun sum a => sum + f a) init = init + (l.map f).sum := by
  induction l generalizing init with
  | nil => simp
  | cons a l ih => simp [ih, Nat.add_assoc]

theorem topicWeight_eq_specWeight (words keywords : List Str) :
    topicWeight words keywords = specWeight words keywords := by
  unfold topicWeight specWeight
  rw [foldl_add_eq_sum, Nat.zero_add]
  congr 1
  apply List.map_congr_left
  intro k _
  rw [← List.countP_eq_length_filter]
  apply List.countP_congr
  intro w _
  simp [includes_iff]

theorem weightedTopics_getElem? (words : List Str) (i : Nat) :
    (weightedTopics words)[i]? =
      (topics[i]?).map
        (fun entry => (entry.1, TopicData.mk entry.2.keywords (topicWeight words entry.2.keywords))) := by
  simp [weightedTopics]

/-- The head of `sortedTopics` is the entry of the first topic of greatest weight. -/
theorem sortedTopics_head (words : List Str) :
    ∃ (i : Nat) (e : Str × TopicData) (rest : List (Str × TopicData)),
      topics[i]? = some e ∧
      sortedTopics words =
        (e.1, TopicData.mk e.2.keywords (topicWeight words e.2.keywords)) :: rest ∧
      ∀ (j : Nat) (ej : Str × TopicData), topics[j]? = some ej →
        topicWeight words ej.2.keywords ≤ topicWeight words e.2.keywords ∧
        (j < i → topicWeight words ej.2.keywords < topicWeight words e.2.keywords) := by
  obtain ⟨zs, hmap, hperm, hpw⟩ :=
    insertionSort_stable_desc (fun e : Str × TopicData => e.2.weight)
      (fun a b => (b.2.weight : Int) - (a.2.weight : Int) ≤ 0) (weightedTopics words)
      (fun a _ b _ => by simp only; omega)
  have hsorted : sortedTopics words = zs.map Prod.snd := hmap
  have hlen : zs.length = 6 := by
    rw [hperm.length_eq, List.enum_length]
    rfl
  cases zs with
  | nil => cases hlen
  | cons z rest =>
    obtain ⟨i, x⟩ := z
    have hmem : (i, x) ∈ (weightedTopics words).enum :=
      hperm.mem_iff.1 (List.mem_cons_self _ _)
    rw [List.mk_mem_enum_iff_getElem?, weightedTopics_getElem?, Option.map_eq_some'] at hmem
    obtain ⟨e, he, hx⟩ := hmem
    refine ⟨i, e, rest.map Prod.snd, he, ?_, ?_⟩
    · rw [hsorted, List.map_cons, hx]
    · intro j ej hej
      have hj : (j, (ej.1, TopicData.mk ej.2.keywords (topicWeight words ej.2.keywords))) ∈
          (weightedTopics words).enum := by
        rw [List.mk_mem_enum_iff_getElem?, weightedTopics_getElem?, hej]
        rfl
      rcases List.mem_cons.1 (hperm.mem_iff.2 hj) with heq | hrest
      · have hji : j = i := congrArg Prod.fst heq
        have hxe : (ej.1, TopicData.mk ej.2.keywords (topicWeight words ej.2.keywords)) = x :=
          congrArg Prod.snd heq
        rw [← hx] at hxe
        have hw : topicWeight words ej.2.keywords = topicWeight words e.2.keywords :=
          congrArg (fun y : Str × TopicData => y.2.weight) hxe
        exact ⟨le_of_eq hw, fun h => absurd hji (Nat.ne_of_lt h)⟩
      · have hb := (List.pairwise_cons.1 hpw).1 _ hrest
        unfold Beats at hb
        rw [← hx] at hb
        simp only at hb
        rcases hb with hb | ⟨hb, hlt⟩
        · exact ⟨le_of_lt hb, fun _ => hb⟩
        · exact ⟨le_of_eq hb, fun h => absurd h (Nat.lt_asymm hlt)⟩

theorem weightOf_eq {Num : Type} (nlp : Nlp Num) (text : Str) (i : Nat) (e : Str × TopicData)
    (he : topics[i]? = some e) :
    weightOf nlp text i = topicWeight (nlp.tokenize (nlp.toLowerCase text)) e.2.keywords := by
  unfold weightOf
  rw [he, topicWeight_eq_specWeight]

theorem topics_getElem?_of_lt (j : Nat) (hj : j < 6) : ∃ ej, topics[j]? = some ej := by
  have hlen : j < topics.length := hj
  exact ⟨topics[j], List.getElem?_eq_getElem hlen⟩

/-- C2: the topic names are declared in the order politics, sports, agriculture,
business, technology, entertainment; with the weight of a topic the sum, over its
keywords, of the number of tokens of the lower-cased text containing the keyword,
`determineTopic` returns `general` when all six weights are 0, and otherwise the name
of a topic whose weight is greatest and strictly greater than that of every topic
declared before it. -/
theorem determineTopic_spec {Num : Type} (nlp : Nlp Num) (text : Str) :
    topics.map Prod.fst = topicNames ∧
    ((∀ i < 6, weightOf nlp text i = 0) → determineTopic nlp text = "general".toList) ∧
    ((∃ i < 6, weightOf nlp text i ≠ 0) →
      ∃ i < 6, topicNames[i]? = some (determineTopic nlp text) ∧
        (∀ j < 6, weightOf nlp text j ≤ weightOf nlp text i) ∧
        ∀ j < i, weightOf nlp text j < weightOf nlp text i) := by
  obtain ⟨i, e, rest, he, hsorted, hmax⟩ :=
    sortedTopics_head (nlp.tokenize (nlp.toLowerCase text))
  have hi : i < 6 := by
    have h := (List.getElem?_eq_some_iff.1 he).1
    exact h
  have hwi := weightOf_eq nlp text i e he
  have hdet : determineTopic nlp text =
      if topicWeight (nlp.tokenize (nlp.toLowerCase text)) e.2.keywords > 0 then e.1
      else "general".toList := by
    unfold determineTopic
    simp only [hsorted]
  have hname : topicNames[i]? = some e.1 := by
    have h : (topics.map Prod.fst)[i]? = some e.1 := by rw [List.getElem?_map, he]; rfl
    exact h
  refine ⟨rfl, ?_, ?_⟩
  · intro hzero
    have h0 := hzero i hi
    rw [hwi] at h0
    rw [hdet, h0]
    rfl
  · rintro ⟨k, hk, hne⟩
    obtain ⟨ek, hek⟩ := topics_getElem?_of_lt k hk
    have hkle := (hmax k ek hek).1
    rw [← weightOf_eq nlp text k ek hek, ← hwi] at hkle
    have hpos : weightOf nlp text i > 0 := by omega
    refine ⟨i, hi, ?_, ?_, ?_⟩
    · rw [hdet, ← hwi, if_pos hpos, hname]
    · intro j hj
      obtain ⟨ej, hej⟩ := topics_getElem?_of_lt j hj
      have h := (hmax j ej hej).1
      rw [← weightOf_eq nlp text j ej hej, ← hwi] at h
      exact h
    · intro j hj
      obtain ⟨ej, hej⟩ := topics_getElem?_of_lt j (lt_trans hj hi)
      have h := (hmax j ej hej).2 hj
      rw [← weightOf_eq nlp text j ej hej, ← hwi] at h
      exact h

theorem determineTopic_spec_witness :
    determineTopic sampleNlp "hello world".toList = "general".toList ∧
      ∃ i < 6, topicNames[i]? = some (determineTopic sampleNlp "startup star".toList) ∧
        (∀ j < 6, weightOf sampleNlp "startup star".toList j ≤
          weightOf sampleNlp "startup star".toList i) ∧
        ∀ j < i, weightOf sampleNlp "startup star".toList j <
          weightOf sampleNlp "startup star".toList i :=
  ⟨(determineTopic_spec sampleNlp "hello world".toList).2.1 (by decide),
    (determineTopic_spec sampleNlp "startup star".toList).2.2 ⟨5, by decide, by decide⟩⟩

/-! ## Properties: the sentences selected by generateSummary -/

/-- The first two elements of a stable sort by descending key are the two elements that
beat all the others, the first beating the second. -/
theorem insertionSort_top_two {α K : Type} [LinearOrder K] (key : α → K)
    (r : α → α → Prop) [DecidableRel r] (xs : List α)
    (hr : ∀ a ∈ xs, ∀ b ∈ xs, r a b ↔ key b ≤ key a) (hlen : 2 ≤ xs.length) :
    ∃ (i j : Nat) (a b : α) (rest : List α),
      xs.insertionSort r = a :: b :: rest ∧ xs[i]? = some a ∧ xs[j]? = some b ∧
      Beats key (i, a) (j, b) ∧
      ∀ (k : Nat) (x : α), xs[k]? = some x → k ≠ i → k ≠ j →
        Beats key (i, a) (k, x) ∧ Beats key (j, b) (k, x) := by
  obtain ⟨zs, hmap, hperm, hpw⟩ := insertionSort_stable_desc key r xs hr
  have hzlen : zs.length = xs.length := by rw [hperm.length_eq, List.enum_length]
  match zs, hmap, hperm, hpw, hzlen with
  | [], _, _, _, hzlen => simp at hzlen; omega
  | [_], _, _, _, hzlen => simp at hzlen; omega
  | (i, a) :: (j, b) :: rest, hmap, hperm, hpw, _ =>
    have hi : xs[i]? = some a :=
      List.mk_mem_enum_iff_getElem?.1 (hperm.mem_iff.1 (List.mem_cons_self _ _))
    have hj : xs[j]? = some b :=
      List.mk_mem_enum_iff_getElem?.1
        (hperm.mem_iff.1 (List.mem_cons_of_mem _ (List.mem_cons_self _ _)))
    rw [List.pairwise_cons, List.pairwise_cons] at hpw
    refine ⟨i, j, a, b, rest.map Prod.snd, by rw [hmap]; rfl, hi, hj,
      hpw.1 _ (List.mem_cons_self _ _), ?_⟩
    intro k x hk hki hkj
    have hmem : (k, x) ∈ (i, a) :: (j, b) :: rest :=
      hperm.mem_iff.2 (List.mk_mem_enum_iff_getElem?.2 hk)
    rcases List.mem_cons.1 hmem with heq | hmem
    · exact absurd (congrArg Prod.fst heq) hki
    · rcases List.mem_cons.1 hmem with heq | hmem
      · exact absurd (congrArg Prod.fst heq) hkj
      · exact ⟨hpw.1 _ (List.mem_cons_of_mem _ hmem), hpw.2.1 _ hmem⟩

theorem indexOf_of_getElem? (l : List Str) (i : Nat) (s : Str) (h : l[i]? = some s) :
    l.indexOf s ≤ i ∧ l[l.indexOf s]? = some s := by
  induction l generalizing i with
  | nil => simp at h
  | cons x t ih =>
    rw [List.indexOf_cons]
    by_cases hx : x = s
    · subst hx
      simp
    · have hbeq : (x == s) = false := by simpa using hx
      rw [hbeq]
      cases i with
      | zero =>
        simp at h
        exact absurd h hx
      | succ i' =>
        have h' : t[i']? = some s := by simpa using h
        obtain ⟨h1, h2⟩ := ih i' h'
        simp only [cond_false]
        refine ⟨by omega, ?_⟩
        simpa using h2

theorem sentenceScores_getElem? {Num : Type} (nlp : Nlp Num)
    (sentences : List Str) (k : Nat) :
    (sentenceScores nlp sentences)[k]? =
      (sentences[k]?).map (fun s => ScoredSentence.mk s (sentenceScore nlp sentences k s)) := by
  unfold sentenceScores
  rw [List.getElem?_map, List.getElem?_enum]
  cases sentences[k]? <;> rfl

theorem signOfDifference_le_zero {Num : Type} [LinearOrder Num] (x y : Num) :
    signOfDifference (some x) (some y) ≤ 0 ↔ x ≤ y := by
  show (if y < x then (1 : Int) else if x < y then -1 else 0) ≤ 0 ↔ x ≤ y
  split_ifs with h1 h2
  · constructor
    · intro h; omega
    · intro h; exact absurd h1 (not_lt.2 h)
  · constructor
    · intro _; exact le_of_lt h2
    · intro _; omega
  · constructor
    · intro _; exact not_lt.1 h1
    · intro _; omega

theorem lt_of_beats_of_eq {Num : Type} [LinearOrder Num] (i k : Nat) (a x : ScoredSentence Num)
    (h : Beats scoreKey (i, a) (k, x)) (heq : x.score = a.score) : i < k := by
  unfold Beats scoreKey at h
  simp only at h
  rcases h with h | ⟨_, h⟩
  · rw [heq] at h
    exact absurd h (lt_irrefl _)
  · exact h

theorem outranks_of_beats {Num : Type} [LinearOrder Num] (i k : Nat) (a x : ScoredSentence Num)
    (ha : a.score ≠ none) (hx : x.score ≠ none) (h : Beats scoreKey (i, a) (k, x)) :
    Outranks a.score i x.score k := by
  obtain ⟨va, hva⟩ := Option.ne_none_iff_exists'.1 ha
  obtain ⟨vx, hvx⟩ := Option.ne_none_iff_exists'.1 hx
  unfold Beats scoreKey at h
  simp only at h
  rw [hva, hvx] at h
  rw [hva, hvx]
  unfold Outranks
  rcases h with h | ⟨h1, h2⟩
  · left
    have hlt : vx < va := WithBot.coe_lt_coe.1 h
    simp [jsLess, hlt]
  · right
    exact ⟨h1, h2⟩

/-- The summary built from at least two sentences, for a scoring that gives equal
sentences equal scores and no sentence the score `NaN`: the two sentences outranking
all others, in original order. -/
theorem summaryOfSentences_top_two {Num : Type} [LinearOrder Num]
    (nlp : Nlp Num) (sentences : List Str) (hlen : 2 ≤ sentences.length)
    (hscore : ∀ (i j : Nat) (s : Str), sentences[i]? = some s → sentences[j]? = some s →
      sentenceScore nlp sentences i s = sentenceScore nlp sentences j s)
    (hnan : ∀ x ∈ sentenceScores nlp sentences, x.score ≠ none) :
    TopTwoSummary nlp sentences := by
  have hlen' : 2 ≤ (sentenceScores nlp sentences).length := by
    simp [sentenceScores, List.enum_length, hlen]
  have hr : ∀ a ∈ sentenceScores nlp sentences, ∀ b ∈ sentenceScores nlp sentences,
      signOfDifference b.score a.score ≤ 0 ↔ scoreKey b ≤ scoreKey a := by
    intro a ha b hb
    obtain ⟨va, hva⟩ := Option.ne_none_iff_exists'.1 (hnan a ha)
    obtain ⟨vb, hvb⟩ := Option.ne_none_iff_exists'.1 (hnan b hb)
    unfold scoreKey
    rw [hva, hvb, signOfDifference_le_zero]
    exact WithBot.coe_le_coe.symm
  obtain ⟨i, j, a, b, rest, hsort, hi, hj, hab, hall⟩ :=
    insertionSort_top_two scoreKey
      (fun a b : ScoredSentence Num => signOfDifference b.score a.score ≤ 0)
      (sentenceScores nlp sentences) hr hlen'
  rw [sentenceScores_getElem?, Option.map_eq_some'] at hi hj
  obtain ⟨si, hsi, rfl⟩ := hi
  obtain ⟨sj, hsj, rfl⟩ := hj
  have hget : ∀ (k : Nat) (sk : Str), sentences[k]? = some sk →
      (sentenceScores nlp sentences)[k]? =
        some (ScoredSentence.mk sk (sentenceScore nlp sentences k sk)) := by
    intro k sk hk
    rw [sentenceScores_getElem?, hk]
    rfl
  have hall' : ∀ (k : Nat) (sk : Str), sentences[k]? = some sk → k ≠ i → k ≠ j →
      Beats scoreKey (i, ScoredSentence.mk si (sentenceScore nlp sentences i si))
          (k, ScoredSentence.mk sk (sentenceScore nlp sentences k sk)) ∧
        Beats scoreKey (j, ScoredSentence.mk sj (sentenceScore nlp sentences j sj))
          (k, ScoredSentence.mk sk (sentenceScore nlp sentences k sk)) :=
    fun k sk hk hki hkj => hall k _ (hget k sk hk) hki hkj
  have hsome : ∀ (k : Nat) (sk : Str), sentences[k]? = some sk →
      sentenceScore nlp sentences k sk ≠ none :=
    fun k sk hk => hnan _ (List.getElem?_mem (hget k sk hk))
  have hout : ∀ (k : Nat) (sk : Str), sentences[k]? = some sk → k ≠ i → k ≠ j →
      Outranks (sentenceScore nlp sentences i si) i (sentenceScore nlp sentences k sk) k ∧
        Outranks (sentenceScore nlp sentences j sj) j (sentenceScore nlp sentences k sk) k := by
    intro k sk hk hki hkj
    obtain ⟨h1, h2⟩ := hall' k sk hk hki hkj
    exact ⟨outranks_of_beats i k _ _ (hsome i si hsi) (hsome k sk hk) h1,
      outranks_of_beats j k _ _ (hsome j sj hsj) (hsome k sk hk) h2⟩
  have hcond : ((sentences.indexOf si : Int) - (sentences.indexOf sj : Int) ≤ 0) ↔
      sentences.indexOf si ≤ sentences.indexOf sj := by omega
  have htop : topSentences sentences (sentenceScores nlp sentences) =
      if sentences.indexOf si ≤ sentences.indexOf sj then
        [ScoredSentence.mk si (sentenceScore nlp sentences i si),
          ScoredSentence.mk sj (sentenceScore nlp sentences j sj)]
      else
        [ScoredSentence.mk sj (sentenceScore nlp sentences j sj),
          ScoredSentence.mk si (sentenceScore nlp sentences i si)] := by
    unfold topSentences jsSort
    rw [hsort]
    simp only [List.take_succ_cons, List.take_zero, List.insertionSort, List.orderedInsert, hcond]
  by_cases hs : si = sj
  · subst hs
    have heq := hscore i j si hsi hsj
    have hij : i < j := lt_of_beats_of_eq i j _ _ hab heq.symm
    refine ⟨i, j, si, si, hij, hsi, hsj, ?_, hout⟩
    unfold summaryOfSentences
    rw [htop, if_pos (le_refl _)]
    rfl
  · have hidx_i : sentences.indexOf si = i := by
      obtain ⟨hle, hget0⟩ := indexOf_of_getElem? sentences i si hsi
      by_contra hne0
      have h0j : sentences.indexOf si ≠ j := by
        intro h
        rw [h, hsj] at hget0
        exact hs (Option.some.inj hget0).symm
      have heq := hscore _ i si hget0 hsi
      have hlt := lt_of_beats_of_eq i _ _ _ (hall' _ si hget0 hne0 h0j).1 heq
      omega
    have hidx_j : sentences.indexOf sj = j := by
      obtain ⟨hle, hget0⟩ := indexOf_of_getElem? sentences j sj hsj
      by_contra hne0
      have h0i : sentences.indexOf sj ≠ i := by
        intro h
        rw [h, hsi] at hget0
        exact hs (Option.some.inj hget0)
      have heq := hscore _ j sj hget0 hsj
      have hlt := lt_of_beats_of_eq j _ _ _ (hall' _ sj hget0 h0i hne0).2 heq
      omega
    have hne : i ≠ j := by
      intro hij
      rw [hij, hsj] at hsi
      exact hs (Option.some.inj hsi).symm
    rw [hidx_i, hidx_j] at htop
    by_cases hij : i ≤ j
    · refine ⟨i, j, si, sj, lt_of_le_of_ne hij hne, hsi, hsj, ?_, hout⟩
      unfold summaryOfSentences
      rw [htop, if_pos hij]
      rfl
    · refine ⟨j, i, sj, si, not_le.1 hij, hsj, hsi, ?_,
        fun k sk hk hkj hki => (hout k sk hk hki hkj).symm⟩
      unfold summaryOfSentences
      rw [htop, if_neg hij]
      rfl

/-- C5, as stated, fails: the three sentences of `nanText` are distinct, so equal
sentences have equal scores, but the second holds the token `__proto__` and its score is
`NaN`; every comparison with it yields `NaN`, the sort leaves the array as it is, and the
summary is made of sentences 0 and 1 although sentence 2 has the highest score. -/
theorem summary_misses_top_sentence :
    2 ≤ (splitSentences nanText).length ∧
    (∀ (i j : Nat) (s : Str),
      (splitSentences nanText)[i]? = some s → (splitSentences nanText)[j]? = some s →
      sentenceScore sampleNlp (splitSentences nanText) i s =
        sentenceScore sampleNlp (splitSentences nanText) j s) ∧
    summaryOfSentences sampleNlp (splitSentences nanText) =
      "Rain fell.  The __proto__ key.".toList ∧
    ¬ TopTwoSummary sampleNlp (splitSentences nanText) := by
  have hsplit : splitSentences nanText =
      ["Rain fell.".toList, " The __proto__ key.".toList,
        " Farmers harvest wheat crops.".toList] := by decide
  have hsummary : summaryOfSentences sampleNlp (splitSentences nanText) =
      "Rain fell.  The __proto__ key.".toList := by decide
  refine ⟨by decide, fun _ _ _ _ _ => rfl, hsummary, ?_⟩
  rintro ⟨i, j, si, sj, hij, hsi, hsj, hsum, hall⟩
  rw [hsummary] at hsum
  rw [hsplit] at hsi hsj hall
  have hj : j < 3 := (List.getElem?_eq_some_iff.1 hsj).1
  interval_cases j <;> interval_cases i
  · have h0 : "Rain fell.".toList = si := Option.some.inj hsi
    have h1 : " The __proto__ key.".toList = sj := Option.some.inj hsj
    subst h0 h1
    have h2 := (hall 2 " Farmers harvest wheat crops.".toList rfl (by decide) (by decide)).1
    revert h2
    unfold Outranks
    decide
  · have h0 : "Rain fell.".toList = si := Option.some.inj hsi
    have h1 : " Farmers harvest wheat crops.".toList = sj := Option.some.inj hsj
    subst h0 h1
    exact absurd hsum (by decide)
  · have h0 : " The __proto__ key.".toList = si := Option.some.inj hsi
    have h1 : " Farmers harvest wheat crops.".toList = sj := Option.some.inj hsj
    subst h0 h1
    exact absurd hsum (by decide)

/-- C5, amended: for a text split into at least two sentences and a scoring that gives
equal sentences equal scores and no sentence the score `NaN`, the summary
`generateSummary` builds before the length test is the two highest-scoring sentences
(the earlier one winning a tie in score) joined by a single space, the one of smaller
position first; it is the value returned whenever it fits the maximum length. -/
theorem generateSummary_top_two {Num : Type} [LinearOrder Num]
    (nlp : Nlp Num) (text : Str) (hlen : 2 ≤ (splitSentences text).length)
    (hscore : ∀ (i j : Nat) (s : Str),
      (splitSentences text)[i]? = some s → (splitSentences text)[j]? = some s →
      sentenceScore nlp (splitSentences text) i s = sentenceScore nlp (splitSentences text) j s)
    (hnan : ∀ x ∈ sentenceScores nlp (splitSentences text), x.score ≠ none) :
    TopTwoSummary nlp (splitSentences text) ∧
      ∀ m : Int, ((summaryOfSentences nlp (splitSentences text)).length : Int) ≤ m →
        generateSummary nlp text m = summaryOfSentences nlp (splitSentences text) := by
  refine ⟨summaryOfSentences_top_two nlp (splitSentences text) hlen hscore hnan, ?_⟩
  intro m hm
  unfold generateSummary
  simp only
  rw [if_neg (by omega), if_neg (by omega)]

theorem generateSummary_top_two_witness :
    TopTwoSummary sampleNlp (splitSentences "Hi. Yo. And a third! Fourth one?".toList) ∧
      generateSummary sampleNlp "Hi. Yo. And a third! Fourth one?".toList 150 =
        summaryOfSentences sampleNlp (splitSentences "Hi. Yo. And a third! Fourth one?".toList) :=
  ⟨(generateSummary_top_two sampleNlp "Hi. Yo. And a third! Fourth one?".toList (by decide)
      (fun _ _ _ _ _ => rfl) (by decide)).1,
    (generateSummary_top_two sampleNlp "Hi. Yo. And a third! Fourth one?".toList (by decide)
      (fun _ _ _ _ _ => rfl) (by decide)).2 150 (by decide)⟩

/-! ## Properties: generateSummary and the maximum length -/

/-- C10, as stated, fails: `generateSummary('Hi. Yo.', 2)` is `...`, a string of 3
characters; the text has two sentences, their joined summary has 8 characters, and
`substring(0, 2 - 3)` is empty. -/
theorem generateSummary_exceeds_small_max :
    generateSummary sampleNlp "Hi. Yo.".toList 2 = "...".toList ∧
      ¬ ((generateSummary sampleNlp "Hi. Yo.".toList 2).length : Int) ≤ 2 := by
  decide

/-- C10, amended: for every text and every maximum length `m ≥ 3`,
`generateSummary(text, m)` returns a string of at most `m` characters. -/
theorem generateSummary_bounded_from_three {Num : Type} [LinearOrder Num]
    (nlp : Nlp Num) (text : Str) (m : Int) (hm : 3 ≤ m) :
    ((generateSummary nlp text m).length : Int) ≤ m :=
  generateSummary_length_le nlp text m hm

theorem generateSummary_bounded_from_three_witness :
    generateSummary sampleNlp "Hi. Yo.".toList 5 = "Hi...".toList ∧
      ((generateSummary sampleNlp "Hi. Yo.".toList 5).length : Int) ≤ 5 :=
  ⟨by decide, generateSummary_bounded_from_three sampleNlp "Hi. Yo.".toList 5 (by decide)⟩

end NewsFeed
